import Mathlib

/-!
Shallow embedding of the PLIP-report conversion and visualisation pipeline:
`xmltojson-checkpoint.py` (XML → canonical JSON) and `visual-checkpoint.py`
(canonical JSON → per-residue count table).  Python values occurring in the
data path are modelled by `JVal` (JSON null ↔ Python `None`), XML elements by
`XElem`.  Machine details that the source relies on are modelled explicitly:
Python truthiness (`truthy`), the `or`-chains used for key probing (`pyOrL`,
`pyOrS`), `str()` rendering (`pyStr`, `str(None) = "None"`), and the two
regular expressions `([A-Z]{2,4})\s*(-?\d+)\s*([A-Za-z]?)` (`matchRes`, used
with `re.match`, i.e. anchored prefix matching) and `-?\d+` (`firstIntSearch`,
used with `re.search`).  Floating point numbers do not occur on any modelled
path and are omitted from `JVal`.
-/

/-- ASCII digit, as matched by the regex class `\d` on the ASCII inputs of
this pipeline. -/
def isDigitC (c : Char) : Bool := 48 ≤ c.toNat && c.toNat ≤ 57

/-- ASCII upper-case letter, the regex class `[A-Z]`. -/
def isUpperC (c : Char) : Bool := 65 ≤ c.toNat && c.toNat ≤ 90

/-- ASCII letter, the regex class `[A-Za-z]`. -/
def isAlphaC (c : Char) : Bool :=
  isUpperC c || (97 ≤ c.toNat && c.toNat ≤ 122)

/-- The regex class `\s` (ASCII part): space, tab, newline, carriage return,
vertical tab, form feed. -/
def pyIsSpace (c : Char) : Bool :=
  c == ' ' || c == '\t' || c == '\n' || c == '\r' || c == '\x0b' || c == '\x0c'

/-- Numeric value of a digit character. -/
def charToDigit (c : Char) : Nat := c.toNat - 48

/-- Value of a list of digit characters read left to right (the effect of
Python `int` on a digit string). -/
def digitsVal (cs : List Char) : Nat :=
  cs.foldl (fun a c => a * 10 + charToDigit c) 0

/-- Decimal digit characters of `n`, most significant first; fuel-based so
that it is structurally recursive (`fuel ≥ n` suffices). -/
def natCharsAux : Nat → Nat → List Char
  | 0, _ => []
  | fuel + 1, n =>
    if n = 0 then [] else natCharsAux fuel (n / 10) ++ [Nat.digitChar (n % 10)]

/-- Decimal digit characters of `n` (Python `str` of a non-negative int). -/
def natChars (n : Nat) : List Char :=
  if n = 0 then ['0'] else natCharsAux n n

/-- Characters of Python `str` of an int (minus sign for negatives). -/
def pyIntChars (n : Int) : List Char :=
  if n < 0 then '-' :: natChars n.natAbs else natChars n.toNat

/-- Python `str` of an int. -/
def pyIntStr (n : Int) : String := String.mk (pyIntChars n)

/-- `re.search(r"-?\d+", s)` followed by `int(...)` on the match: scan left to
right for the first signed decimal integer substring and return its value. -/
def firstIntSearch : List Char → Option Int
  | [] => none
  | c :: rest =>
    if isDigitC c then
      some ((digitsVal ((c :: rest).takeWhile isDigitC) : Nat) : Int)
    else if c = '-' then
      match rest with
      | r :: _ =>
        if isDigitC r then some (-(digitsVal (rest.takeWhile isDigitC) : Nat))
        else firstIntSearch rest
      | [] => none
    else firstIntSearch rest

/-- String wrapper for `firstIntSearch`. -/
def firstIntSearchS (s : String) : Option Int := firstIntSearch s.data

/-- Python `sub in s` on character lists. -/
def containsSub (needle : List Char) : List Char → Bool
  | [] => needle.isEmpty
  | c :: t => needle.isPrefixOf (c :: t) || containsSub needle t

/-- Python `s.lower()` (ASCII). -/
def strLower (s : String) : String := String.mk (s.data.map Char.toLower)

/-- Python `s.strip()` (ASCII whitespace). -/
def pyStrip (s : String) : String :=
  String.mk (((s.data.dropWhile pyIsSpace).reverse.dropWhile pyIsSpace).reverse)

/-- JSON values as loaded by Python `json.load`; `null` doubles as Python
`None` (which is exactly how `dict.get` reports a missing key). -/
inductive JVal where
  | null : JVal
  | bool : Bool → JVal
  | int : Int → JVal
  | str : String → JVal
  | list : List JVal → JVal
  | dict : List (String × JVal) → JVal

mutual
/-- Decidable equality for `JVal` (spelled out because `deriving` does not
handle the nested `List` occurrences). -/
def decEqJVal : (a b : JVal) → Decidable (a = b)
  | .null, .null => isTrue rfl
  | .null, .bool _ => isFalse (fun h => JVal.noConfusion h)
  | .null, .int _ => isFalse (fun h => JVal.noConfusion h)
  | .null, .str _ => isFalse (fun h => JVal.noConfusion h)
  | .null, .list _ => isFalse (fun h => JVal.noConfusion h)
  | .null, .dict _ => isFalse (fun h => JVal.noConfusion h)
  | .bool _, .null => isFalse (fun h => JVal.noConfusion h)
  | .bool x, .bool y =>
    if h : x = y then isTrue (congrArg JVal.bool h)
    else isFalse (fun hh => h (JVal.bool.inj hh))
  | .bool _, .int _ => isFalse (fun h => JVal.noConfusion h)
  | .bool _, .str _ => isFalse (fun h => JVal.noConfusion h)
  | .bool _, .list _ => isFalse (fun h => JVal.noConfusion h)
  | .bool _, .dict _ => isFalse (fun h => JVal.noConfusion h)
  | .int _, .null => isFalse (fun h => JVal.noConfusion h)
  | .int _, .bool _ => isFalse (fun h => JVal.noConfusion h)
  | .int x, .int y =>
    if h : x = y then isTrue (congrArg JVal.int h)
    else isFalse (fun hh => h (JVal.int.inj hh))
  | .int _, .str _ => isFalse (fun h => JVal.noConfusion h)
  | .int _, .list _ => isFalse (fun h => JVal.noConfusion h)
  | .int _, .dict _ => isFalse (fun h => JVal.noConfusion h)
  | .str _, .null => isFalse (fun h => JVal.noConfusion h)
  | .str _, .bool _ => isFalse (fun h => JVal.noConfusion h)
  | .str _, .int _ => isFalse (fun h => JVal.noConfusion h)
  | .str x, .str y =>
    if h : x = y then isTrue (congrArg JVal.str h)
    else isFalse (fun hh => h (JVal.str.inj hh))
  | .str _, .list _ => isFalse (fun h => JVal.noConfusion h)
  | .str _, .dict _ => isFalse (fun h => JVal.noConfusion h)
  | .list _, .null => isFalse (fun h => JVal.noConfusion h)
  | .list _, .bool _ => isFalse (fun h => JVal.noConfusion h)
  | .list _, .int _ => isFalse (fun h => JVal.noConfusion h)
  | .list _, .str _ => isFalse (fun h => JVal.noConfusion h)
  | .list x, .list y =>
    match decEqJList x y with
    | isTrue h => isTrue (congrArg JVal.list h)
    | isFalse h => isFalse (fun hh => h (JVal.list.inj hh))
  | .list _, .dict _ => isFalse (fun h => JVal.noConfusion h)
  | .dict _, .null => isFalse (fun h => JVal.noConfusion h)
  | .dict _, .bool _ => isFalse (fun h => JVal.noConfusion h)
  | .dict _, .int _ => isFalse (fun h => JVal.noConfusion h)
  | .dict _, .str _ => isFalse (fun h => JVal.noConfusion h)
  | .dict _, .list _ => isFalse (fun h => JVal.noConfusion h)
  | .dict x, .dict y =>
    match decEqJDict x y with
    | isTrue h => isTrue (congrArg JVal.dict h)
    | isFalse h => isFalse (fun hh => h (JVal.dict.inj hh))

/-- Decidable equality for lists of `JVal`. -/
def decEqJList : (a b : List JVal) → Decidable (a = b)
  | [], [] => isTrue rfl
  | [], _ :: _ => isFalse (fun h => List.noConfusion h)
  | _ :: _, [] => isFalse (fun h => List.noConfusion h)
  | x :: xs, y :: ys =>
    match decEqJVal x y, decEqJList xs ys with
    | isTrue h1, isTrue h2 => isTrue (by rw [h1, h2])
    | isFalse h1, _ => isFalse (fun hh => by injection hh with a b; exact h1 a)
    | _, isFalse h2 => isFalse (fun hh => by injection hh with a b; exact h2 b)

/-- Decidable equality for dict entry lists. -/
def decEqJDict : (a b : List (String × JVal)) → Decidable (a = b)
  | [], [] => isTrue rfl
  | [], _ :: _ => isFalse (fun h => List.noConfusion h)
  | _ :: _, [] => isFalse (fun h => List.noConfusion h)
  | (k1, v1) :: xs, (k2, v2) :: ys =>
    if hk : k1 = k2 then
      match decEqJVal v1 v2, decEqJDict xs ys with
      | isTrue h1, isTrue h2 => isTrue (by rw [hk, h1, h2])
      | isFalse h1, _ => isFalse (fun hh => by
          injection hh with a b
          exact h1 (congrArg Prod.snd a))
      | _, isFalse h2 => isFalse (fun hh => by injection hh with a b; exact h2 b)
    else isFalse (fun hh => by
      injection hh with a b
      exact hk (congrArg Prod.fst a))
end

instance : DecidableEq JVal := decEqJVal

/-- Python truthiness of a `JVal`. -/
def truthy : JVal → Bool
  | .null => false
  | .bool b => b
  | .int n => n != 0
  | .str s => s != ""
  | .list l => !l.isEmpty
  | .dict d => !d.isEmpty

mutual
/-- Python `repr` of a `JVal` (string quoting approximated by plain single
quotes; only ever reached through `str()` of a list or dict, which no claim
exercises). -/
def pyRepr : JVal → String
  | .null => "None"
  | .bool b => if b then "True" else "False"
  | .int n => pyIntStr n
  | .str s => "\x27" ++ s ++ "\x27"
  | .list l => "[" ++ pyReprList l ++ "]"
  | .dict d => "\x7b" ++ pyReprDict d ++ "\x7d"
def pyReprList : List JVal → String
  | [] => ""
  | [v] => pyRepr v
  | v :: rest => pyRepr v ++ ", " ++ pyReprList rest
def pyReprDict : List (String × JVal) → String
  | [] => ""
  | [(k, v)] => "\x27" ++ k ++ "\x27: " ++ pyRepr v
  | (k, v) :: rest => "\x27" ++ k ++ "\x27: " ++ pyRepr v ++ ", " ++ pyReprDict rest
end

/-- Python `str()` of a `JVal`. -/
def pyStr : JVal → String
  | .null => "None"
  | .bool b => if b then "True" else "False"
  | .int n => pyIntStr n
  | .str s => s
  | .list l => pyRepr (.list l)
  | .dict d => pyRepr (.dict d)

/-- Python `item.get(k)` on a dict: the stored value, or `None` when the key
is absent (JSON objects have unique keys, so `List.lookup` is exact). -/
def pyGet (d : List (String × JVal)) (k : String) : JVal :=
  (d.lookup k).getD .null

/-- A Python `or`-chain `v₁ or v₂ or ... or vₙ`: the first truthy value, or
the last value when none is truthy. -/
def pyOrL : List JVal → JVal
  | [] => .null
  | [v] => v
  | v :: rest => if truthy v then v else pyOrL rest

/-- `re.match(r'([A-Z]{2,4})\s*(-?\d+)\s*([A-Za-z]?)', s)`: anchored prefix
match.  Greedy matching with backtracking collapses to: the whole initial
upper-case run must have length 2..4 (a shorter capture would leave an
upper-case letter where `\s*(-?\d+)` must match, which always fails). -/
def parseSignedInt (cs : List Char) : Option (List Char × List Char) :=
  match cs with
  | [] => none
  | c :: rest =>
    if c = '-' then
      let ds := rest.takeWhile isDigitC
      if ds = [] then none else some (c :: ds, rest.dropWhile isDigitC)
    else
      let ds := (c :: rest).takeWhile isDigitC
      if ds = [] then none else some (ds, (c :: rest).dropWhile isDigitC)

/-- The three captured groups of the residue-label regex, or `none` when the
regex does not match (see `parseSignedInt` for the backtracking argument). -/
def matchRes (cs : List Char) : Option (List Char × List Char × Option Char) :=
  let letters := cs.takeWhile isUpperC
  if 2 ≤ letters.length ∧ letters.length ≤ 4 then
    let r2 := (cs.dropWhile isUpperC).dropWhile pyIsSpace
    match parseSignedInt r2 with
    | some (numCs, r3) =>
      let r4 := r3.dropWhile pyIsSpace
      let g3 := match r4 with
        | c :: _ => if isAlphaC c then some c else none
        | [] => none
      some (letters, numCs, g3)
    | none => none
  else none

/-- `make_res_label` from `visual-checkpoint.py` (lines 7-30): extract a
display label from a PLIP residue dict or plain value. -/
def make_res_label (item : JVal) : String :=
  match item with
  | .dict d =>
    let name := pyOrL [pyGet d "resname", pyGet d "residue_name",
                       pyGet d "residue", pyGet d "name"]
    let num := pyOrL [pyGet d "resnr", pyGet d "residue_number",
                      pyGet d "residue_id", pyGet d "resSeq", pyGet d "number"]
    let chain := pyOrL [pyGet d "chain", pyGet d "chain_id",
                        pyGet d "chainId", .str ""]
    let nnc : JVal × JVal × JVal :=
      if name = .null then
        match pyGet d "label" with
        | .str txt =>
          match matchRes txt.data with
          | some (g1, g2, g3) =>
            (.str (String.mk g1), .str (String.mk g2),
              match g3 with
              | some ch => .str (String.mk [ch])
              | none => chain)
          | none => (name, num, chain)
        | _ => (name, num, chain)
      else (name, num, chain)
    let name := if truthy nnc.1 then nnc.1 else .str "UNK"
    let num := if truthy nnc.2.1 then nnc.2.1 else .str "?"
    let chain := nnc.2.2
    let num : JVal :=
      match firstIntSearch (pyStr num).data with
      | some n => .int n
      | none => .str (pyStr num)
    if truthy chain then pyStr name ++ pyStr num ++ "_" ++ pyStr chain
    else pyStr name ++ pyStr num
  | v =>
    let s := pyStr v
    match matchRes s.data with
    | some (g1, g2, g3) =>
      String.mk (g1 ++ g2 ++ (match g3 with
        | some ch => ['_', ch]
        | none => []))
    | none => s

/-- The four canonical interaction categories. -/
inductive Cat where
  | hb : Cat
  | hyd : Cat
  | ion : Cat
  | wb : Cat
deriving DecidableEq

/-- Display name of a category (`visual-checkpoint.py` bins). -/
def Cat.jsonName : Cat → String
  | .hb => "H-bonds"
  | .hyd => "Hydrophobic"
  | .ion => "Ionic"
  | .wb => "Water bridges"

/-- Machine-readable output key of a category (`xmltojson-checkpoint.py`). -/
def Cat.xmlKey : Cat → String
  | .hb => "hydrogen_bonds"
  | .hyd => "hydrophobic_contacts"
  | .ion => "ionic_interactions"
  | .wb => "water_bridges"

/-- Keyword table of `normalize_json` (`visual-checkpoint.py` lines 38-50),
in dict insertion order. -/
def jsonKeywords : List (String × Cat) :=
  [("hydrogen", .hb), ("hbond", .hb), ("hb", .hb),
   ("hydrophobic", .hyd), ("hydro", .hyd), ("hyd", .hyd),
   ("ionic", .ion), ("salt", .ion),
   ("water", .wb), ("bridge", .wb), ("waters", .wb)]

/-- Keyword table of `walk_and_collect` (`xmltojson-checkpoint.py` lines
77-86), in dict insertion order. -/
def xmlKeywords : List (String × Cat) :=
  [("hydrogen", .hb), ("hbond", .hb),
   ("hydrophobic", .hyd), ("hydro", .hyd),
   ("ionic", .ion), ("salt", .ion),
   ("water", .wb), ("bridge", .wb)]

/-- First keyword of `table` contained in the (already lowercased) string
`t`; the classification loop `for kw, mapped in mapping.items(): if kw in
...`. -/
def classifyFromLower (table : List (String × Cat)) (t : String) : Option Cat :=
  match table with
  | [] => none
  | (kw, c) :: rest =>
    if containsSub kw.data t.data then some c else classifyFromLower rest t

/-- Classification of a JSON top-level key (`kw in k.lower()`). -/
def classifyJson (k : String) : Option Cat :=
  classifyFromLower jsonKeywords (strLower k)

/-- The canonical output mapping of `normalize_json`: one ordered item list
per category (`out` in the source; its Python key order comes from a set
comprehension and is irrelevant to every modelled property). -/
structure NormOut where
  hbonds : List JVal
  hydrophobic : List JVal
  ionic : List JVal
  water : List JVal
deriving DecidableEq

/-- `out` with all four bins empty. -/
def emptyOut : NormOut := ⟨[], [], [], []⟩

/-- Python iteration of a value, as consumed by `list.extend` (a string
yields its characters, a dict its keys; `extend` on the remaining
non-iterable values raises `TypeError` in Python and is unreachable in every
modelled scenario, so it is mapped to the empty extension). -/
def pyIter : JVal → List JVal
  | .list l => l
  | .str s => s.data.map (fun c => .str (String.mk [c]))
  | .dict d => d.map (fun p => JVal.str p.1)
  | _ => []

/-- `out[cat].extend(v)`. -/
def addCat (o : NormOut) (c : Cat) (items : List JVal) : NormOut :=
  match c with
  | .hb => { o with hbonds := o.hbonds ++ items }
  | .hyd => { o with hydrophobic := o.hydrophobic ++ items }
  | .ion => { o with ionic := o.ionic ++ items }
  | .wb => { o with water := o.water ++ items }

/-- `plip_json[lower_keys[canonical]]`: the value stored under the last
top-level key whose lowercase form equals `lc` (dict comprehensions are
last-wins; JSON documents have unique keys). -/
def canonValue (doc : List (String × JVal)) (lc : String) : Option JVal :=
  ((doc.filter (fun p => strLower p.1 == lc)).getLast?).map Prod.snd

/-- One step of the canonical-key copy loop (`visual-checkpoint.py` lines
55-63). -/
def canonStep (doc : List (String × JVal)) (o : NormOut) (lc : String)
    (c : Cat) : NormOut :=
  match canonValue doc lc with
  | some v => addCat o c (pyIter v)
  | none => o

/-- Secondary classification signal from the first list item
(`visual-checkpoint.py` lines 78-84): for a dict first item, the `type` /
`interaction` field run through the keyword table. -/
def hintClassify (items : List JVal) : Option Cat :=
  match items with
  | .dict d :: _ =>
    let t := pyOrL [pyGet d "type", pyGet d "interaction", .str ""]
    match t with
    | .str s => classifyFromLower jsonKeywords (strLower s)
    | _ => none
  | _ => none

/-- `normalize_json` from `visual-checkpoint.py` (lines 32-90).  Note that
the heuristic loop at lines 66-89 iterates over every top-level key,
including the canonical ones already copied at lines 55-63. -/
def normalize_json (doc : List (String × JVal)) : NormOut :=
  let o := emptyOut
  let o := canonStep doc o "hydrogen_bonds" .hb
  let o := canonStep doc o "hydrophobic_contacts" .hyd
  let o := canonStep doc o "ionic_interactions" .ion
  let o := canonStep doc o "water_bridges" .wb
  doc.foldl (fun o kv =>
    match kv.2 with
    | .list items =>
      match classifyJson kv.1 with
      | some c => addCat o c items
      | none =>
        match hintClassify items with
        | some c => addCat o c items
        | none => addCat o .hyd items
    | _ => o) o

/-- A row of the count table: the per-category counters of one residue
label, in insertion order (the `defaultdict` lambda pre-seeds the four
canonical columns). -/
def initRow : List (String × Nat) :=
  [("H-bonds", 0), ("Hydrophobic", 0), ("Ionic", 0), ("Water bridges", 0)]

/-- `counts[label][itype] += 1` on one row. -/
def bumpRow (row : List (String × Nat)) (cat : String) : List (String × Nat) :=
  match row with
  | [] => [(cat, 1)]
  | (c, n) :: rest =>
    if c = cat then (c, n + 1) :: rest else (c, n) :: bumpRow rest cat

/-- `counts[label][itype] += 1` on the whole table (insertion-ordered
association list, like a Python dict). -/
def addItem (counts : List (String × List (String × Nat))) (label cat : String) :
    List (String × List (String × Nat)) :=
  match counts with
  | [] => [(label, bumpRow initRow cat)]
  | (l, row) :: rest =>
    if l = label then (l, bumpRow row cat) :: rest
    else (l, row) :: addItem rest label cat

/-- `sort_key` from `build_counts` (lines 104-106): the first signed integer
in the label, or the sentinel `10**9` when none parses. -/
def sortKey (lbl : String) : Int :=
  match firstIntSearchS lbl with
  | some n => n
  | none => 10 ^ 9

/-- Row order used by `df.reindex(sorted(df.index, key=sort_key))`; Python
`sorted` is stable, which `List.insertionSort` reproduces. -/
def rowOrd (a b : String × List (String × Nat)) : Prop :=
  sortKey a.1 ≤ sortKey b.1

instance : DecidableRel rowOrd := fun a b => Int.decLe _ _

instance : IsTotal (String × List (String × Nat)) rowOrd :=
  ⟨fun a b => Int.le_total _ _⟩

instance : IsTrans (String × List (String × Nat)) rowOrd :=
  ⟨fun _ _ _ h1 h2 => le_trans h1 h2⟩

/-- `build_counts` from `visual-checkpoint.py` (lines 92-108), on the
normalized mapping given as an ordered list of `(category, items)` pairs (the
iteration order of the `out` dict).  Returns the sorted table and the grand
total. -/
def build_counts (normalized : List (String × List JVal)) :
    List (String × List (String × Nat)) × Nat :=
  let st := normalized.foldl
    (fun st p =>
      p.2.foldl (fun st it => (addItem st.1 (make_res_label it) p.1, st.2 + 1)) st)
    ([], 0)
  if st.1 = [] then ([], st.2) else (List.insertionSort rowOrd st.1, st.2)

/-- The unsorted count table in encounter order: the `counts` dict of
`build_counts` as it stands before the `reindex` (same fold as in
`build_counts`). -/
def rawTable (normalized : List (String × List JVal)) :
    List (String × List (String × Nat)) :=
  (normalized.foldl
    (fun st p =>
      p.2.foldl (fun st it => (addItem st.1 (make_res_label it) p.1, st.2 + 1)) st)
    ([], 0)).1

/-- The category/items pairs of a `NormOut`, in the canonical order used
when stating end-to-end properties (the Python dict order is a set-iteration
order; all modelled properties are invariant under it). -/
def NormOut.toPairs (o : NormOut) : List (String × List JVal) :=
  [("H-bonds", o.hbonds), ("Hydrophobic", o.hydrophobic),
   ("Ionic", o.ionic), ("Water bridges", o.water)]

/-- An XML element as exposed by `xml.etree.ElementTree`: tag, attributes,
text (the text node before the first child) and child elements. -/
inductive XElem where
  | mk : String → List (String × String) → Option String → List XElem → XElem

/-- Element tag. -/
def XElem.tag : XElem → String
  | .mk t _ _ _ => t

/-- Element attributes. -/
def XElem.attrs : XElem → List (String × String)
  | .mk _ a _ _ => a

/-- Element text. -/
def XElem.text : XElem → Option String
  | .mk _ _ tx _ => tx

/-- Child elements. -/
def XElem.children : XElem → List XElem
  | .mk _ _ _ cs => cs

mutual
/-- Decidable equality for `XElem` (nested inductive, so spelled out). -/
def decEqXElem : (a b : XElem) → Decidable (a = b)
  | .mk t1 a1 x1 c1, .mk t2 a2 x2 c2 =>
    if h1 : t1 = t2 then
      if h2 : a1 = a2 then
        if h3 : x1 = x2 then
          match decEqXList c1 c2 with
          | isTrue h4 => isTrue (by rw [h1, h2, h3, h4])
          | isFalse h4 => isFalse (fun hh => by injection hh; exact h4 (by assumption))
        else isFalse (fun hh => by injection hh; exact h3 (by assumption))
      else isFalse (fun hh => by injection hh; exact h2 (by assumption))
    else isFalse (fun hh => by injection hh; exact h1 (by assumption))

/-- Decidable equality for lists of `XElem`. -/
def decEqXList : (a b : List XElem) → Decidable (a = b)
  | [], [] => isTrue rfl
  | [], _ :: _ => isFalse (fun h => List.noConfusion h)
  | _ :: _, [] => isFalse (fun h => List.noConfusion h)
  | x :: xs, y :: ys =>
    match decEqXElem x y, decEqXList xs ys with
    | isTrue h1, isTrue h2 => isTrue (by rw [h1, h2])
    | isFalse h1, _ => isFalse (fun hh => by injection hh with u v; exact h1 u)
    | _, isFalse h2 => isFalse (fun hh => by injection hh with u v; exact h2 v)
end

instance : DecidableEq XElem := decEqXElem

/-- `tag_localname` (`xmltojson-checkpoint.py` lines 14-16): part of the tag
after the last closing brace, lowercased. -/
def tag_localname (t : String) : String :=
  String.mk ((t.data.foldl (fun acc c =>
    if c = Char.ofNat 125 then [] else acc ++ [c]) []).map Char.toLower)

/-- A Python `or`-chain over optional strings (attribute probing): first
truthy value, else the last value (`None` or a falsy string). -/
def pyOrS (a b : Option String) : Option String :=
  match a with
  | some s => if s != "" then some s else b
  | none => b

/-- An `or`-chain `get k₁ or get k₂ or ... or get kₙ` over an attribute
dict. -/
def probeS (attrs : List (String × String)) : List String → Option String
  | [] => none
  | [k] => attrs.lookup k
  | k :: rest => pyOrS (attrs.lookup k) (probeS attrs rest)

/-- Python falsiness of an optional string (`not name`). -/
def falsyS : Option String → Bool
  | some s => s == ""
  | none => true

/-- The child-element scan of `find_residue_info` (lines 36-45): probe child
tags for name/number/chain text. -/
def childTextScan (st : Option String × Option String × Option String)
    (children : List XElem) :
    Option String × Option String × Option String :=
  children.foldl (fun st c =>
    let t := tag_localname c.tag
    let text : Option String :=
      match c.text with
      | some s => if s != "" then some (pyStrip s) else none
      | none => none
    let textOk : Option String :=
      match text with
      | some ts => if ts != "" then some ts else none
      | none => none
    let nm := if t ∈ ["resname", "residue_name", "residue", "name", "residueName"]
      then (match textOk with
        | some ts => pyOrS st.1 (some ts)
        | none => st.1)
      else st.1
    let nu := if t ∈ ["resnr", "residue_number", "residue_id", "number", "residueNumber"]
      then (match textOk with
        | some ts => pyOrS st.2.1 (some ts)
        | none => st.2.1)
      else st.2.1
    let ch := if t ∈ ["chain", "chain_id", "chainid"]
      then (match textOk with
        | some ts => pyOrS st.2.2 (some ts)
        | none => st.2.2)
      else st.2.2
    (nm, nu, ch)) st

/-- The nested `resid`-child scan of `find_residue_info` (lines 48-55). -/
def residChildScan (st : Option String × Option String × Option String)
    (children : List XElem) :
    Option String × Option String × Option String :=
  children.foldl (fun st c =>
    let tcond :=
      containsSub "resid".data (tag_localname c.tag).data ||
        (match c.attrs.lookup "type" with
         | some tv => containsSub "resid".data (strLower tv).data
         | none => false)
    if tcond then
      (pyOrS st.1 (pyOrS (c.attrs.lookup "resname") (c.attrs.lookup "name")),
       pyOrS st.2.1 (pyOrS (c.attrs.lookup "resnr") (c.attrs.lookup "number")),
       pyOrS st.2.2 (c.attrs.lookup "chain"))
    else st) st

/-- `find_residue_info` from `xmltojson-checkpoint.py` (lines 18-69).  The
result is the residue dict (as later serialised to JSON) or `None`. -/
def find_residue_info (e : XElem) : Option JVal :=
  let name := probeS e.attrs ["resname", "residue_name", "residue", "name", "resName"]
  let num := probeS e.attrs ["resnr", "residue_number", "residue_id", "number", "seq", "resSeq"]
  let chain := probeS e.attrs ["chain", "chain_id", "chainId"]
  let st :=
    if name = none ∨ num = none then childTextScan (name, num, chain) e.children
    else (name, num, chain)
  let st :=
    if st.1 = none ∨ st.2.1 = none then residChildScan st e.children
    else st
  let name := st.1
  let num := st.2.1
  let chain := st.2.2
  if falsyS name && falsyS num then none
  else
    let numStr : String := match num with
      | some s => s
      | none => "None"
    let rn : JVal := match firstIntSearch numStr.data with
      | some k => .int k
      | none => .str numStr
    some (.dict
      [("resname", match name with
         | some s => .str s
         | none => .null),
       ("resnr", rn),
       ("chain", .str (match chain with
         | some s => s
         | none => ""))])

/-- Classification of an XML element (`walk_and_collect` lines 90-106): the
local tag first, then the `type`-style attributes. -/
def classifyXml (e : XElem) : Option Cat :=
  match classifyFromLower xmlKeywords (tag_localname e.tag) with
  | some c => some c
  | none =>
    let typ : String :=
      match pyOrS (e.attrs.lookup "type")
          (pyOrS (e.attrs.lookup "interaction") (e.attrs.lookup "interactionType")) with
      | some s => s
      | none => ""
    classifyFromLower xmlKeywords (strLower typ)

mutual
/-- `elem.iter()`: the element followed by its descendants in document
order. -/
def allElems : XElem → List XElem
  | .mk t a tx cs => .mk t a tx cs :: allElemsL cs
/-- `iter()` concatenated over a list of elements. -/
def allElemsL : List XElem → List XElem
  | [] => []
  | c :: cs => allElems c ++ allElemsL cs
end

/-- The residue-search filter of `walk_and_collect` (line 114): local tag
contains `residue`, or is `partner` or `atom`. -/
def residueLike (e : XElem) : Bool :=
  containsSub "residue".data (tag_localname e.tag).data ||
    tag_localname e.tag ∈ ["partner", "atom"]

/-- The residue dicts collected from the subtree of a classified element
(`walk_and_collect` lines 112-118). -/
def resInfos (e : XElem) : List JVal :=
  (allElems e).filterMap (fun el =>
    if residueLike el then find_residue_info el else none)

/-- What one classified element appends to its category (lines 112-123):
the subtree residues, or the element's own residue info as fallback. -/
def payloadOf (e : XElem) : List JVal :=
  let rs := resInfos e
  if rs.isEmpty then (find_residue_info e).toList else rs

/-- The contribution of one element of the traversal to the output. -/
def contribList (e : XElem) : List JVal :=
  match classifyXml e with
  | none => []
  | some _ => payloadOf e

/-- All items appended to category `c` during the traversal, in traversal
order (the `defaultdict(list)` groups exactly this way). -/
def collectCat (root : XElem) (c : Cat) : List JVal :=
  ((allElems root).map (fun e =>
    if classifyXml e = some c then contribList e else [])).flatten

/-- `walk_and_collect` (lines 71-125) composed with the four-key completion
of `main` (lines 132-134): the JSON document written by the converter. -/
def walk_and_collect (root : XElem) : List (String × List JVal) :=
  [Cat.hb, Cat.hyd, Cat.ion, Cat.wb].map (fun c => (c.xmlKey, collectCat root c))

/-- Sum of the counters of one row of the count table. -/
def rowSum (row : List (String × Nat)) : Nat := (row.map Prod.snd).sum

/-- Sum of all cells of the count table. -/
def cellSum (t : List (String × List (String × Nat))) : Nat :=
  (t.map (fun p => rowSum p.2)).sum

/-- Number of occurrences of `x` in a list of values. -/
def cntJ (x : JVal) : List JVal → Nat
  | [] => 0
  | y :: ys => (if y = x then 1 else 0) + cntJ x ys

/-- Number of occurrences of a residue dict across all four category lists
of a converter output. -/
def countAllX (x : JVal) (out : List (String × List JVal)) : Nat :=
  (out.map (fun p => cntJ x p.2)).sum

/-- Modelled from the spec: the string pattern as the specification words it
("one-to-four uppercase letters, optionally followed by whitespace, followed
by an optional signed integer, optionally followed by a single letter (the
chain)"), for comparison with the source pattern `matchRes`. -/
def specMatchRes (cs : List Char) : Option (List Char × List Char × Option Char) :=
  let letters := cs.takeWhile isUpperC
  if 1 ≤ letters.length ∧ letters.length ≤ 4 then
    let r2 := (cs.dropWhile isUpperC).dropWhile pyIsSpace
    match parseSignedInt r2 with
    | some (numCs, r3) =>
      let g3 := match r3 with
        | c :: _ => if isAlphaC c then some c else none
        | [] => none
      some (letters, numCs, g3)
    | none =>
      let g3 := match r2 with
        | c :: _ => if isAlphaC c then some c else none
        | [] => none
      some (letters, [], g3)
  else none

/-- Modelled from the spec: the label the specification's pattern reading
assigns to a plain string (captured groups when the pattern matches, raw
string otherwise). -/
def specLabel (s : String) : String :=
  match specMatchRes s.data with
  | some (g1, g2, g3) =>
    String.mk (g1 ++ g2 ++ (match g3 with
      | some ch => ['_', ch]
      | none => []))
  | none => s

/-! ### Printing and re-parsing integers -/

theorem digitChar_isDigitC {d : Nat} (h : d < 10) :
    isDigitC (Nat.digitChar d) = true := by
  interval_cases d <;> decide

theorem digitChar_charToDigit {d : Nat} (h : d < 10) :
    charToDigit (Nat.digitChar d) = d := by
  interval_cases d <;> decide

theorem digitsVal_append_singleton (l : List Char) (c : Char) :
    digitsVal (l ++ [c]) = digitsVal l * 10 + charToDigit c := by
  simp [digitsVal, List.foldl_append]

theorem takeWhile_eq_self_of_all {p : Char → Bool} :
    ∀ {l : List Char}, (∀ c ∈ l, p c = true) → l.takeWhile p = l
  | [], _ => rfl
  | c :: cs, h => by
    have hc : p c = true := h c (List.mem_cons_self c cs)
    have ih := takeWhile_eq_self_of_all
      (p := p) (l := cs) (fun x hx => h x (List.mem_cons_of_mem c hx))
    rw [List.takeWhile_cons, if_pos hc, ih]

theorem firstIntSearch_cons (c : Char) (cs : List Char) :
    firstIntSearch (c :: cs) =
      if isDigitC c then
        some ((digitsVal ((c :: cs).takeWhile isDigitC) : Nat) : Int)
      else if c = '-' then
        (match cs with
         | r :: _ =>
           if isDigitC r then
             some (-((digitsVal (cs.takeWhile isDigitC) : Nat) : Int))
           else firstIntSearch cs
         | [] => none)
      else firstIntSearch cs := rfl

theorem natCharsAux_spec :
    ∀ fuel n, n ≤ fuel →
      (∀ c ∈ natCharsAux fuel n, isDigitC c = true) ∧
        digitsVal (natCharsAux fuel n) = n := by
  intro fuel
  induction fuel with
  | zero =>
    intro n hn
    have : n = 0 := Nat.le_zero.mp hn
    subst this
    exact ⟨by simp [natCharsAux], by simp [natCharsAux, digitsVal]⟩
  | succ f ih =>
    intro n hn
    by_cases h0 : n = 0
    · subst h0
      exact ⟨by simp [natCharsAux], by simp [natCharsAux, digitsVal]⟩
    · have hdiv : n / 10 ≤ f := by omega
      obtain ⟨ihd, ihv⟩ := ih (n / 10) hdiv
      have hlt : n % 10 < 10 := Nat.mod_lt _ (by omega)
      constructor
      · intro c hc
        rw [natCharsAux, if_neg h0] at hc
        rcases List.mem_append.mp hc with h | h
        · exact ihd c h
        · rcases List.mem_singleton.mp h with rfl
          exact digitChar_isDigitC hlt
      · rw [natCharsAux, if_neg h0, digitsVal_append_singleton, ihv,
          digitChar_charToDigit hlt]
        omega

theorem natChars_spec (n : Nat) :
    (∀ c ∈ natChars n, isDigitC c = true) ∧
      digitsVal (natChars n) = n ∧ natChars n ≠ [] := by
  by_cases h0 : n = 0
  · subst h0
    exact ⟨by decide, by decide, by decide⟩
  · obtain ⟨hd, hv⟩ := natCharsAux_spec n n (le_refl n)
    rw [natChars, if_neg h0]
    refine ⟨hd, hv, ?_⟩
    intro hnil
    rw [hnil] at hv
    simp [digitsVal] at hv
    exact h0 hv.symm

/-- Re-parsing the printed form of an int recovers it: `re.search(r"-?\d+",
str(n))` followed by `int` is the identity on ints. -/
theorem firstIntSearch_pyIntChars (n : Int) :
    firstIntSearch (pyIntChars n) = some n := by
  by_cases hn : n < 0
  · rw [pyIntChars, if_pos hn]
    obtain ⟨hd, hv, hne⟩ := natChars_spec n.natAbs
    obtain ⟨c, cs, hl⟩ := List.exists_cons_of_ne_nil hne
    rw [hl]
    have hc : isDigitC c = true := by
      apply hd
      rw [hl]; exact List.mem_cons_self c cs
    have htw : (c :: cs).takeWhile isDigitC = c :: cs := by
      apply takeWhile_eq_self_of_all
      intro x hx
      apply hd
      rw [hl]; exact hx
    rw [firstIntSearch_cons]
    have hminus : isDigitC '-' = false := by decide
    rw [hminus]
    simp only [Bool.false_eq_true, if_false, if_pos rfl, hc, if_true, htw]
    have hveq : digitsVal (c :: cs) = n.natAbs := by rw [← hl]; exact hv
    rw [hveq]
    congr 1
    omega
  · rw [pyIntChars, if_neg hn]
    obtain ⟨hd, hv, hne⟩ := natChars_spec n.toNat
    obtain ⟨c, cs, hl⟩ := List.exists_cons_of_ne_nil hne
    rw [hl]
    have hc : isDigitC c = true := by
      apply hd
      rw [hl]; exact List.mem_cons_self c cs
    have htw : (c :: cs).takeWhile isDigitC = c :: cs := by
      apply takeWhile_eq_self_of_all
      intro x hx
      apply hd
      rw [hl]; exact hx
    rw [firstIntSearch_cons, if_pos hc, htw]
    have hveq : digitsVal (c :: cs) = n.toNat := by rw [← hl]; exact hv
    rw [hveq]
    congr 1
    omega

/-! ### Claim C2: structured-record extraction -/

theorem data_mk (l : List Char) : (String.mk l).data = l := rfl

/-- C2 (amended): for every structured record holding a non-empty string
under one recognized name key and a nonzero integer under one recognized
number key, `make_res_label` renders `name ++ str(number)`, independent of
which synonym keys were used.  (The truthiness-based probing of the source
skips falsy values such as `0` or `""`, hence the added hypotheses.) -/
theorem c2_amended (nm : String) (n : Int) (nk numk : String)
    (hnk : nk ∈ ["resname", "residue_name", "residue", "name"])
    (hnum : numk ∈ ["resnr", "residue_number", "residue_id", "resSeq", "number"])
    (hnm : nm ≠ "") (hn : n ≠ 0) :
    make_res_label (.dict [(nk, .str nm), (numk, .int n)]) = nm ++ pyIntStr n := by
  fin_cases hnk <;> fin_cases hnum <;>
    simp [make_res_label, pyGet, pyOrL, truthy, pyStr, List.lookup, pyIntStr,
      data_mk, firstIntSearch_pyIntChars, hnm, hn]

/-- C2 witness: the two example records of the claim both yield `GLU40`. -/
theorem c2_witness :
    make_res_label (.dict [("resname", .str "GLU"), ("resnr", .int 40)]) = "GLU40" ∧
      make_res_label (.dict [("residue", .str "GLU"), ("residue_number", .int 40)]) = "GLU40" := by
  constructor
  · rw [c2_amended "GLU" 40 "resname" "resnr" (by decide) (by decide)
      (by decide) (by decide)]
    decide
  · rw [c2_amended "GLU" 40 "residue" "residue_number" (by decide) (by decide)
      (by decide) (by decide)]
    decide

/-- C2 counterexample: `{"resname": "GLU", "resnr": 0}` holds a recognized
name key and a recognized number key, but the label is `GLU?`, not `GLU0`:
the Python `or`-chain treats the stored number `0` as missing. -/
theorem c2_counterexample :
    make_res_label (.dict [("resname", .str "GLU"), ("resnr", .int 0)]) = "GLU?" ∧
      ("GLU?" : String) ≠ "GLU0" := by
  constructor
  · decide
  · decide

/-! ### Claim C3: plain-string extraction -/

theorem toNat_le_of_space {c : Char} (h : pyIsSpace c = true) : c.toNat ≤ 32 := by
  simp [pyIsSpace] at h
  rcases h with ((((h | h) | h) | h) | h) | h <;> subst h <;> decide

theorem isUpperC_eq_false_of_space {c : Char} (h : pyIsSpace c = true) :
    isUpperC c = false := by
  have h1 := toNat_le_of_space h
  simp [isUpperC]
  omega

theorem isUpperC_eq_false_of_digit {c : Char} (h : isDigitC c = true) :
    isUpperC c = false := by
  simp [isDigitC] at h
  simp [isUpperC]
  omega

theorem pyIsSpace_eq_false_of_digit {c : Char} (h : isDigitC c = true) :
    pyIsSpace c = false := by
  cases hsp : pyIsSpace c
  · rfl
  · have h1 := toNat_le_of_space hsp
    simp [isDigitC] at h
    omega

theorem isDigitC_eq_false_of_alpha {c : Char} (h : isAlphaC c = true) :
    isDigitC c = false := by
  simp [isAlphaC, isUpperC] at h
  simp [isDigitC]
  omega

theorem pyIsSpace_eq_false_of_alpha {c : Char} (h : isAlphaC c = true) :
    pyIsSpace c = false := by
  cases hsp : pyIsSpace c
  · rfl
  · have h1 := toNat_le_of_space hsp
    simp [isAlphaC, isUpperC] at h
    omega

theorem takeWhile_append_of {p : Char → Bool} :
    ∀ (l r : List Char), (∀ a ∈ l, p a = true) →
      (∀ c, r.head? = some c → p c = false) → (l ++ r).takeWhile p = l
  | [], r, _, hr => by
    cases r with
    | nil => rfl
    | cons c t =>
      simp only [List.nil_append, List.takeWhile_cons, hr c rfl]
      simp
  | a :: l, r, hl, hr => by
    have ha : p a = true := hl a (List.mem_cons_self a l)
    simp only [List.cons_append, List.takeWhile_cons, ha, if_true]
    rw [takeWhile_append_of l r (fun x hx => hl x (List.mem_cons_of_mem a hx)) hr]

theorem dropWhile_append_of {p : Char → Bool} :
    ∀ (l r : List Char), (∀ a ∈ l, p a = true) →
      (∀ c, r.head? = some c → p c = false) → (l ++ r).dropWhile p = r
  | [], r, _, hr => by
    cases r with
    | nil => rfl
    | cons c t =>
      simp only [List.nil_append, List.dropWhile_cons, hr c rfl]
      simp
  | a :: l, r, hl, hr => by
    have ha : p a = true := hl a (List.mem_cons_self a l)
    simp only [List.cons_append, List.dropWhile_cons, ha, if_true]
    exact dropWhile_append_of l r (fun x hx => hl x (List.mem_cons_of_mem a hx)) hr

theorem pyIntChars_ne_nil (n : Int) : pyIntChars n ≠ [] := by
  rw [pyIntChars]
  by_cases hn : n < 0
  · simp [hn]
  · simp [hn]
    exact (natChars_spec n.toNat).2.2

theorem pyIntChars_head_hard {n : Int} {c : Char} {cs : List Char}
    (h : pyIntChars n = c :: cs) : isUpperC c = false ∧ pyIsSpace c = false := by
  rw [pyIntChars] at h
  by_cases hn : n < 0
  · rw [if_pos hn] at h
    have : c = '-' := by
      injection h with h1 h2
      exact h1.symm
    subst this
    exact ⟨by decide, by decide⟩
  · rw [if_neg hn] at h
    have hd : isDigitC c = true := by
      apply (natChars_spec n.toNat).1
      rw [h]
      exact List.mem_cons_self c cs
    exact ⟨isUpperC_eq_false_of_digit hd, pyIsSpace_eq_false_of_digit hd⟩

/-- `parseSignedInt` recovers the printed int at the head of a list whose
remainder does not begin with a digit. -/
theorem parseSignedInt_pyIntChars (n : Int) (cp : List Char)
    (hcp : ∀ c, cp.head? = some c → isDigitC c = false) :
    parseSignedInt (pyIntChars n ++ cp) = some (pyIntChars n, cp) := by
  rw [pyIntChars]
  by_cases hn : n < 0
  · rw [if_pos hn]
    obtain ⟨hdig, _, hne⟩ := natChars_spec n.natAbs
    obtain ⟨c, cs, hl⟩ := List.exists_cons_of_ne_nil hne
    rw [hl]
    have hall : ∀ a ∈ c :: cs, isDigitC a = true := by
      intro a ha
      apply hdig
      rw [hl]; exact ha
    have htw : ((c :: cs) ++ cp).takeWhile isDigitC = c :: cs :=
      takeWhile_append_of _ _ hall hcp
    have hdw : ((c :: cs) ++ cp).dropWhile isDigitC = cp :=
      dropWhile_append_of _ _ hall hcp
    show parseSignedInt ('-' :: ((c :: cs) ++ cp)) = _
    rw [parseSignedInt]
    simp only [if_pos rfl, htw, hdw]
    simp
  · rw [if_neg hn]
    obtain ⟨hdig, _, hne⟩ := natChars_spec n.toNat
    obtain ⟨c, cs, hl⟩ := List.exists_cons_of_ne_nil hne
    rw [hl]
    have hall : ∀ a ∈ c :: cs, isDigitC a = true := by
      intro a ha
      apply hdig
      rw [hl]; exact ha
    have hcd : isDigitC c = true := hall c (List.mem_cons_self c cs)
    have hcm : ¬(c = '-') := by
      intro h
      subst h
      exact absurd hcd (by decide)
    have htw : ((c :: cs) ++ cp).takeWhile isDigitC = c :: cs :=
      takeWhile_append_of _ _ hall hcp
    have hdw : ((c :: cs) ++ cp).dropWhile isDigitC = cp :=
      dropWhile_append_of _ _ hall hcp
    show parseSignedInt (c :: (cs ++ cp)) = _
    rw [parseSignedInt]
    simp only [if_neg hcm]
    rw [show c :: (cs ++ cp) = (c :: cs) ++ cp from rfl, htw, hdw]
    simp [List.takeWhile_cons, hcd]

/-- The source regex on a string assembled from 2-4 upper-case letters,
whitespace, a printed integer and an optional chain letter: it captures
exactly those three groups. -/
theorem matchRes_assembled (ls ws : List Char) (n : Int) (copt : Option Char)
    (hls : ∀ c ∈ ls, isUpperC c = true) (h2 : 2 ≤ ls.length) (h4 : ls.length ≤ 4)
    (hws : ∀ c ∈ ws, pyIsSpace c = true)
    (hc : ∀ ch, copt = some ch → isAlphaC ch = true) :
    matchRes (ls ++ ws ++ pyIntChars n ++ copt.toList) =
      some (ls, pyIntChars n, copt) := by
  obtain ⟨c0, cs0, hpi⟩ := List.exists_cons_of_ne_nil (pyIntChars_ne_nil n)
  obtain ⟨hc0u, hc0s⟩ := pyIntChars_head_hard hpi
  have hcpd : ∀ c, copt.toList.head? = some c → isDigitC c = false := by
    intro c hh
    cases copt with
    | none => cases hh
    | some ch =>
      have : c = ch := by
        simp [Option.toList] at hh
        exact hh.symm
      subst this
      exact isDigitC_eq_false_of_alpha (hc c rfl)
  have hcps : ∀ c, copt.toList.head? = some c → pyIsSpace c = false := by
    intro c hh
    cases copt with
    | none => cases hh
    | some ch =>
      have : c = ch := by
        simp [Option.toList] at hh
        exact hh.symm
      subst this
      exact pyIsSpace_eq_false_of_alpha (hc c rfl)
  have hpihead : ∀ c, (pyIntChars n ++ copt.toList).head? = some c →
      isUpperC c = false ∧ pyIsSpace c = false := by
    intro c hh
    rw [hpi] at hh
    simp only [List.cons_append, List.head?_cons, Option.some.injEq] at hh
    subst hh
    exact ⟨hc0u, hc0s⟩
  have hresthead : ∀ c, (ws ++ pyIntChars n ++ copt.toList).head? = some c →
      isUpperC c = false := by
    intro c hh
    cases ws with
    | nil =>
      simp only [List.nil_append] at hh
      exact (hpihead c hh).1
    | cons w tws =>
      simp only [List.cons_append, List.head?_cons, Option.some.injEq] at hh
      subst hh
      exact isUpperC_eq_false_of_space (hws _ (List.mem_cons_self _ _))
  have htw1 : (ls ++ (ws ++ pyIntChars n ++ copt.toList)).takeWhile isUpperC = ls :=
    takeWhile_append_of _ _ hls hresthead
  have hdw1 : (ls ++ (ws ++ pyIntChars n ++ copt.toList)).dropWhile isUpperC =
      ws ++ pyIntChars n ++ copt.toList :=
    dropWhile_append_of _ _ hls hresthead
  have hdw2 : (ws ++ (pyIntChars n ++ copt.toList)).dropWhile pyIsSpace =
      pyIntChars n ++ copt.toList :=
    dropWhile_append_of _ _ hws (fun c hh => (hpihead c hh).2)
  have hpsi : parseSignedInt (pyIntChars n ++ copt.toList) =
      some (pyIntChars n, copt.toList) :=
    parseSignedInt_pyIntChars n _ hcpd
  have hdw3 : copt.toList.dropWhile pyIsSpace = copt.toList := by
    cases copt with
    | none => rfl
    | some ch =>
      simp only [Option.toList]
      rw [List.dropWhile_cons, pyIsSpace_eq_false_of_alpha (hc ch rfl)]
      simp
  rw [matchRes]
  simp only [List.append_assoc] at *
  rw [htw1]
  rw [if_pos ⟨h2, h4⟩]
  rw [hdw1, hdw2, hpsi]
  simp only [hdw3]
  cases copt with
  | none => rfl
  | some ch => simp [hc ch rfl]

/-- C3 (amended): the pattern actually used is two-to-four upper-case
letters, optional whitespace, a mandatory signed integer, optional
whitespace, then an optional single letter of either case, matched as a
prefix; a matching string is decomposed into `name ++ number` plus a
`_chain` suffix when the chain letter is present, and any string the
pattern rejects is returned unchanged. -/
theorem c3_amended (ls ws : List Char) (n : Int) (copt : Option Char)
    (hls : ∀ c ∈ ls, isUpperC c = true) (h2 : 2 ≤ ls.length) (h4 : ls.length ≤ 4)
    (hws : ∀ c ∈ ws, pyIsSpace c = true)
    (hc : ∀ ch, copt = some ch → isAlphaC ch = true) :
    make_res_label (.str (String.mk (ls ++ ws ++ pyIntChars n ++ copt.toList))) =
      String.mk (ls ++ pyIntChars n ++ (match copt with
        | some ch => ['_', ch]
        | none => [])) := by
  have hms := matchRes_assembled ls ws n copt hls h2 h4 hws hc
  simp only [make_res_label, pyStr, data_mk, hms]
  cases copt with
  | none => rfl
  | some ch => rfl

/-- C3 witness: the two example strings of the claim. -/
theorem c3_witness :
    make_res_label (.str "GLU 40") = "GLU40" ∧
      make_res_label (.str "GLU40A") = "GLU40_A" := by
  constructor
  · have h := c3_amended ['G', 'L', 'U'] [' '] 40 none (by decide) (by decide)
      (by decide) (by decide) (fun ch hch => Option.noConfusion hch)
    have harg : ("GLU 40" : String) =
        String.mk (['G', 'L', 'U'] ++ [' '] ++ pyIntChars 40 ++
          (Option.toList (none : Option Char))) := by decide
    rw [harg, h]
    decide
  · have h := c3_amended ['G', 'L', 'U'] [] 40 (some 'A') (by decide) (by decide)
      (by decide) (by decide)
      (fun ch hch => by
        injection hch with h2
        rw [← h2]
        decide)
    have harg : ("GLU40A" : String) =
        String.mk (['G', 'L', 'U'] ++ [] ++ pyIntChars 40 ++
          (Option.toList (some 'A'))) := by decide
    rw [harg, h]
    decide

/-- C3 counterexample: under the claim's reading of the pattern
(one-to-four letters, optional integer) the string `"A 1"` matches and
decomposes to the label `A1`, but the code requires at least two letters and
returns the raw string `"A 1"` unchanged. -/
theorem c3_counterexample :
    specLabel "A 1" = "A1" ∧ make_res_label (.str "A 1") = "A 1" ∧
      ("A 1" : String) ≠ "A1" := by
  refine ⟨by decide, by decide, by decide⟩

/-! ### Claims C5 and C6: the aggregator -/

theorem bumpRow_rowSum (cat : String) :
    ∀ row : List (String × Nat), rowSum (bumpRow row cat) = rowSum row + 1
  | [] => by simp [bumpRow, rowSum]
  | (c, n) :: rest => by
    rw [bumpRow]
    by_cases h : c = cat
    · simp only [if_pos h, rowSum, List.map_cons, List.sum_cons]
      omega
    · have := bumpRow_rowSum cat rest
      simp only [if_neg h, rowSum, List.map_cons, List.sum_cons] at this ⊢
      omega

theorem addItem_cellSum (label cat : String) :
    ∀ counts, cellSum (addItem counts label cat) = cellSum counts + 1
  | [] => by
    have hb : rowSum (bumpRow initRow cat) = rowSum initRow + 1 :=
      bumpRow_rowSum cat initRow
    have h0 : rowSum initRow = 0 := by decide
    simp only [addItem, cellSum, List.map_cons, List.map_nil, List.sum_cons,
      List.sum_nil, hb, h0]
    omega
  | (l, row) :: rest => by
    rw [addItem]
    by_cases h : l = label
    · simp only [if_pos h, cellSum, List.map_cons, List.sum_cons, bumpRow_rowSum]
      omega
    · have := addItem_cellSum label cat rest
      simp only [if_neg h, cellSum, List.map_cons, List.sum_cons] at this ⊢
      omega

theorem countsFold_inner (cat : String) :
    ∀ (items : List JVal) (st : List (String × List (String × Nat)) × Nat),
      (items.foldl (fun st it =>
          (addItem st.1 (make_res_label it) cat, st.2 + 1)) st).2 =
        st.2 + items.length ∧
      cellSum (items.foldl (fun st it =>
          (addItem st.1 (make_res_label it) cat, st.2 + 1)) st).1 =
        cellSum st.1 + items.length
  | [], st => by simp
  | it :: items, st => by
    simp only [List.foldl_cons, List.length_cons]
    have h := countsFold_inner cat items
      (addItem st.1 (make_res_label it) cat, st.2 + 1)
    rw [h.1, h.2, addItem_cellSum]
    omega

theorem countsFold_outer :
    ∀ (normalized : List (String × List JVal))
      (st : List (String × List (String × Nat)) × Nat),
      (normalized.foldl (fun st p =>
          p.2.foldl (fun st it =>
            (addItem st.1 (make_res_label it) p.1, st.2 + 1)) st) st).2 =
        st.2 + (normalized.map (fun p => p.2.length)).sum ∧
      cellSum (normalized.foldl (fun st p =>
          p.2.foldl (fun st it =>
            (addItem st.1 (make_res_label it) p.1, st.2 + 1)) st) st).1 =
        cellSum st.1 + (normalized.map (fun p => p.2.length)).sum
  | [], st => by simp
  | p :: normalized, st => by
    simp only [List.foldl_cons, List.map_cons, List.sum_cons]
    have hin := countsFold_inner p.1 p.2 st
    have h := countsFold_outer normalized
      (p.2.foldl (fun st it =>
        (addItem st.1 (make_res_label it) p.1, st.2 + 1)) st)
    rw [h.1, h.2, hin.1, hin.2]
    omega

theorem cellSum_insertionSort (counts : List (String × List (String × Nat))) :
    cellSum (List.insertionSort rowOrd counts) = cellSum counts := by
  have hp : List.Perm
      ((List.insertionSort rowOrd counts).map
        (fun p : String × List (String × Nat) => rowSum p.2))
      (counts.map (fun p : String × List (String × Nat) => rowSum p.2)) :=
    (List.perm_insertionSort rowOrd counts).map (fun p => rowSum p.2)
  exact hp.sum_eq

/-- C5: the total returned by `build_counts` is the sum of the lengths of
the category lists, every cell of the table is a non-negative integer, and
the cells sum to the total. -/
theorem c5_conservation (normalized : List (String × List JVal)) :
    (build_counts normalized).2 = (normalized.map (fun p => p.2.length)).sum ∧
      cellSum (build_counts normalized).1 = (build_counts normalized).2 ∧
      ∀ row ∈ (build_counts normalized).1, ∀ cell ∈ row.2, 0 ≤ cell.2 := by
  have h := countsFold_outer normalized ([], 0)
  rw [build_counts]
  by_cases he : (normalized.foldl (fun st p =>
      p.2.foldl (fun st it =>
        (addItem st.1 (make_res_label it) p.1, st.2 + 1)) st) ([], 0)).1 = []
  · simp only [if_pos he]
    refine ⟨by rw [h.1]; simp, ?_, by intro row hrow; cases hrow⟩
    have h2 := h.2
    rw [he] at h2
    simp only [cellSum, List.map_nil, List.sum_nil, zero_add] at h2 ⊢
    rw [h.1]
    omega
  · simp only [if_neg he]
    refine ⟨by rw [h.1]; simp, ?_, by intro row hrow cell hcell; exact Nat.zero_le _⟩
    rw [cellSum_insertionSort, h.2, h.1]
    simp [cellSum]

/-- C5 witness: the conservation properties evaluated on a one-record
report. -/
theorem c5_witness :
    (build_counts [("H-bonds", [JVal.str "GLU4"])]).2 =
        ([("H-bonds", [JVal.str "GLU4"])].map (fun p => p.2.length)).sum ∧
      cellSum (build_counts [("H-bonds", [JVal.str "GLU4"])]).1 =
        (build_counts [("H-bonds", [JVal.str "GLU4"])]).2 ∧
      ∀ row ∈ (build_counts [("H-bonds", [JVal.str "GLU4"])]).1,
        ∀ cell ∈ row.2, 0 ≤ cell.2 :=
  c5_conservation [("H-bonds", [JVal.str "GLU4"])]

theorem orderedInsert_filter_key (K : Int) (x : String × List (String × Nat)) :
    ∀ l, (List.orderedInsert rowOrd x l).filter (fun p => sortKey p.1 == K) =
      if sortKey x.1 == K then
        x :: l.filter (fun p => sortKey p.1 == K)
      else l.filter (fun p => sortKey p.1 == K)
  | [] => by
    by_cases hk : sortKey x.1 == K <;> simp [List.orderedInsert, List.filter, hk]
  | y :: l => by
    rw [List.orderedInsert]
    by_cases hxy : rowOrd x y
    · rw [if_pos hxy]
      by_cases hk : sortKey x.1 == K <;> simp [List.filter_cons, hk]
    · rw [if_neg hxy]
      have ih := orderedInsert_filter_key K x l
      have hyx : sortKey y.1 < sortKey x.1 := by
        rw [rowOrd] at hxy
        omega
      by_cases hk : (sortKey x.1 == K) = true
      · have hkK : sortKey x.1 = K := by simpa using hk
        have hyK : (sortKey y.1 == K) = false := by
          rw [beq_eq_false_iff_ne]
          intro he
          omega
        rw [List.filter_cons, ih, List.filter_cons]
        simp [hk, hyK]
      · have hk2 : (sortKey x.1 == K) = false := by
          cases h2 : (sortKey x.1 == K)
          · rfl
          · exact absurd h2 hk
        rw [List.filter_cons, ih, List.filter_cons]
        simp [hk2]

theorem insertionSort_filter_key (K : Int) :
    ∀ l : List (String × List (String × Nat)),
      (List.insertionSort rowOrd l).filter (fun p => sortKey p.1 == K) =
        l.filter (fun p => sortKey p.1 == K)
  | [] => rfl
  | x :: l => by
    rw [List.insertionSort, orderedInsert_filter_key,
      insertionSort_filter_key K l, List.filter_cons]

/-- C6 (amended): rows are ordered by ascending sort key, where the key of a
label is its first signed integer when one parses and the sentinel `10 ^ 9`
otherwise (so unparseable labels come after every label whose number is
below `10 ^ 9` but before labels with numbers of a billion or more); rows
with equal keys — in particular all unparseable labels among themselves —
keep their encounter order (the filter to any one key value is unchanged by
the sort); on the claim's example the order is `ARG2, LEU5, GLU40`. -/
theorem c6_amended :
    (∀ normalized : List (String × List JVal),
        List.Pairwise rowOrd (build_counts normalized).1) ∧
      (∀ (normalized : List (String × List JVal)) (K : Int),
        (build_counts normalized).1.filter (fun p => sortKey p.1 == K) =
          (rawTable normalized).filter (fun p => sortKey p.1 == K)) ∧
      (build_counts [("H-bonds",
          [JVal.str "LEU5", JVal.str "GLU40", JVal.str "ARG2"])]).1.map Prod.fst =
        ["ARG2", "LEU5", "GLU40"] := by
  refine ⟨?_, ?_, by decide⟩
  · intro normalized
    rw [build_counts]
    by_cases he : (normalized.foldl (fun st p =>
        p.2.foldl (fun st it =>
          (addItem st.1 (make_res_label it) p.1, st.2 + 1)) st) ([], 0)).1 = []
    · simp [if_pos he]
    · simp only [if_neg he]
      exact List.sorted_insertionSort rowOrd _
  · intro normalized K
    rw [build_counts]
    by_cases he : (normalized.foldl (fun st p =>
        p.2.foldl (fun st it =>
          (addItem st.1 (make_res_label it) p.1, st.2 + 1)) st) ([], 0)).1 = []
    · rw [if_pos he, rawTable, he]
    · rw [if_neg he, rawTable]
      exact insertionSort_filter_key K _

/-- C6 counterexample: with the unparseable label `abc` (key `10 ^ 9`) and
the parseable label `XYZ9999999999` (key `9999999999 > 10 ^ 9`), the
unparseable row is placed first, not last. -/
theorem c6_counterexample :
    (build_counts [("H-bonds",
        [JVal.str "abc", JVal.str "XYZ9999999999"])]).1.map Prod.fst =
      ["abc", "XYZ9999999999"] ∧
      firstIntSearchS "XYZ9999999999" = some 9999999999 ∧
      firstIntSearchS "abc" = none := by
  refine ⟨by decide, by decide, by decide⟩

/-! ### Claim C7: unclassified fallback asymmetry -/

theorem canonValue_single_ne (k : String) (v : JVal) (lc : String)
    (h : strLower k ≠ lc) : canonValue [(k, v)] lc = none := by
  have hb : (strLower k == lc) = false := by
    rw [beq_eq_false_iff_ne]
    exact h
  simp [canonValue, List.filter, hb]

theorem classifyJson_ne_canonical (k : String) (h : classifyJson k = none) :
    strLower k ≠ "hydrogen_bonds" ∧ strLower k ≠ "hydrophobic_contacts" ∧
      strLower k ≠ "ionic_interactions" ∧ strLower k ≠ "water_bridges" := by
  rw [classifyJson] at h
  refine ⟨?_, ?_, ?_, ?_⟩ <;> intro he <;> rw [he] at h <;> exact absurd h (by decide)

theorem collectCat_nil (root : XElem) (c : Cat)
    (h : ∀ e ∈ allElems root, classifyXml e = none) : collectCat root c = [] := by
  rw [collectCat, List.flatten_eq_nil_iff]
  intro x hx
  obtain ⟨e, he, rfl⟩ := List.mem_map.mp hx
  rw [h e he]
  simp

/-- C7: a top-level JSON key matching no keyword, whose value is a non-empty
list with no usable first-item type hint, routes its whole list into the
Hydrophobic bin (and nothing anywhere else); the XML normalizer, by
contrast, contributes nothing for unclassified elements — a tree with no
classified element collects nothing, and wrapping a tree in an extra
unclassified element leaves the collected output unchanged. -/
theorem c7_fallback :
    (∀ (k : String) (items : List JVal),
        classifyJson k = none → hintClassify items = none → items ≠ [] →
        normalize_json [(k, .list items)] = ⟨[], items, [], []⟩) ∧
      (∀ root : XElem, (∀ e ∈ allElems root, classifyXml e = none) →
        walk_and_collect root =
          [("hydrogen_bonds", []), ("hydrophobic_contacts", []),
           ("ionic_interactions", []), ("water_bridges", [])]) ∧
      (∀ (t : String) (a : List (String × String)) (tx : Option String)
          (root : XElem),
        classifyXml (.mk t a tx [root]) = none →
        walk_and_collect (.mk t a tx [root]) = walk_and_collect root) := by
  refine ⟨?_, ?_, ?_⟩
  · intro k items hck hhint _
    obtain ⟨h1, h2, h3, h4⟩ := classifyJson_ne_canonical k hck
    have hc1 := canonValue_single_ne k (.list items) _ h1
    have hc2 := canonValue_single_ne k (.list items) _ h2
    have hc3 := canonValue_single_ne k (.list items) _ h3
    have hc4 := canonValue_single_ne k (.list items) _ h4
    simp only [normalize_json, canonStep, hc1, hc2, hc3, hc4, List.foldl_cons,
      List.foldl_nil, hck, hhint]
    simp [emptyOut, addCat]
  · intro root h
    simp only [walk_and_collect, List.map_cons, List.map_nil,
      collectCat_nil root _ h]
    rfl
  · intro t a tx root hcl
    have hcc : ∀ c : Cat, collectCat (.mk t a tx [root]) c = collectCat root c := by
      intro c
      rw [collectCat, collectCat, allElems]
      have h1 : allElemsL [root] = allElems root := by
        rw [allElemsL, allElemsL, List.append_nil]
      rw [h1]
      simp only [List.map_cons, List.flatten_cons, hcl]
      simp
    simp only [walk_and_collect, List.map_cons, List.map_nil, hcc]

/-- C7 witness: the spec's `unknown_contacts` scenario on the JSON side, and
a report with only unclassifiable elements on the XML side. -/
theorem c7_witness :
    normalize_json [("unknown_contacts", .list [.str "X"])] =
        ⟨[], [.str "X"], [], []⟩ ∧
      walk_and_collect (.mk "report" [] none
          [.mk "stuff" [("type", "unknown")] none []]) =
        [("hydrogen_bonds", []), ("hydrophobic_contacts", []),
         ("ionic_interactions", []), ("water_bridges", [])] := by
  constructor
  · exact c7_fallback.1 "unknown_contacts" [.str "X"] (by decide) (by decide)
      (by decide)
  · exact c7_fallback.2.1 (.mk "report" [] none
      [.mk "stuff" [("type", "unknown")] none []]) (by decide)

/-! ### Claim C1: canonical keys are copied twice -/

/-- C1: evaluation of `normalize_json` at the failing input.  A document
whose only key is the canonical `hydrogen_bonds` with a one-element list
yields an `H-bonds` bin of length two: the canonical copy (lines 55-63) is
followed by the heuristic loop (lines 66-89), which iterates over every
top-level key and classifies `hydrogen_bonds` by the `hydrogen` keyword,
appending the same list again, contrary to the `# Otherwise iterate keys
heuristically` comment. -/
theorem c1_double_insert :
    normalize_json [("hydrogen_bonds", .list [.str "SER12"])] =
      ⟨[.str "SER12", .str "SER12"], [], [], []⟩ := by decide

/-! ### Claim C4: XML to JSON round trip -/

/-- C4: converting the XML report with one hydrogen-bond element holding one
residue child `resname="SER" resnr="12" chain="A"` produces exactly the
canonical JSON with the single normalized residue and three empty
categories. -/
theorem c4_roundtrip :
    walk_and_collect (.mk "report" [] none
        [.mk "hydrogen_bond" [] none
          [.mk "residue" [("resname", "SER"), ("resnr", "12"), ("chain", "A")]
            none []]]) =
      [("hydrogen_bonds",
          [.dict [("resname", .str "SER"), ("resnr", .int 12),
            ("chain", .str "A")]]),
       ("hydrophobic_contacts", []), ("ionic_interactions", []),
       ("water_bridges", [])] := by decide

/-! ### Claim C8: sentinel defaults -/

/-- C8 (amended): the JSON-side extractor defaults a missing name to `UNK`
and a missing number to `?` (an empty record labels as `UNK?`), but the
XML-side extraction uses no such sentinels: a missing name is emitted as
JSON `null` and a missing number as the string `"None"` (from Python
`str(None)`). -/
theorem c8_amended :
    make_res_label (.dict []) = "UNK?" ∧
      make_res_label (.dict [("resnr", .int 40)]) = "UNK40" ∧
      make_res_label (.dict [("resname", .str "GLU")]) = "GLU?" ∧
      find_residue_info (.mk "residue" [("resname", "SER")] none []) =
        some (.dict [("resname", .str "SER"), ("resnr", .str "None"),
          ("chain", .str "")]) ∧
      find_residue_info (.mk "residue" [("resnr", "12")] none []) =
        some (.dict [("resname", .null), ("resnr", .int 12),
          ("chain", .str "")]) := by
  refine ⟨by decide, by decide, by decide, by decide, by decide⟩

/-- C8 counterexample: on the XML side a record with a name but no number is
emitted with `resnr = "None"`, not with the claimed `?` sentinel. -/
theorem c8_counterexample :
    find_residue_info (.mk "residue" [("resname", "SER")] none []) =
        some (.dict [("resname", .str "SER"), ("resnr", .str "None"),
          ("chain", .str "")]) ∧
      JVal.str "None" ≠ JVal.str "?" := by
  refine ⟨by decide, by decide⟩

/-! ### Claim C9: records with neither name nor number -/

/-- C9 (amended): on the XML side a record with neither name nor number is
dropped (`find_residue_info` returns `None`, and a classified element whose
only residue candidate is such a record contributes nothing), but the JSON
path keeps such records: an empty dict is counted under the label `UNK?`. -/
theorem c9_amended :
    (∀ (tag : String) (text : Option String),
        find_residue_info (.mk tag [] text []) = none) ∧
      walk_and_collect (.mk "hydrogen_bond" [] none [.mk "residue" [] none []]) =
        [("hydrogen_bonds", []), ("hydrophobic_contacts", []),
         ("ionic_interactions", []), ("water_bridges", [])] ∧
      (build_counts [("H-bonds", [JVal.dict []])]).1 =
        [("UNK?", [("H-bonds", 1), ("Hydrophobic", 0), ("Ionic", 0),
          ("Water bridges", 0)])] ∧
      (build_counts [("H-bonds", [JVal.dict []])]).2 = 1 := by
  refine ⟨fun tag text => rfl, by decide, by decide, by decide⟩

/-- C9 counterexample: a record with neither name nor number (an empty
dict) does reach the aggregator on the JSON path — it contributes the row
`UNK?` and one count. -/
theorem c9_counterexample :
    make_res_label (.dict []) = "UNK?" ∧
      (build_counts [("H-bonds", [JVal.dict []])]).1.map Prod.fst = ["UNK?"] ∧
      (build_counts [("H-bonds", [JVal.dict []])]).2 = 1 := by
  refine ⟨by decide, by decide, by decide⟩

/-! ### Claim C10: nested classified elements duplicate residues -/

theorem cntJ_append (x : JVal) :
    ∀ a b : List JVal, cntJ x (a ++ b) = cntJ x a + cntJ x b
  | [], b => by simp [cntJ]
  | y :: a, b => by
    show (if y = x then 1 else 0) + cntJ x (a ++ b) =
      (if y = x then 1 else 0) + cntJ x a + cntJ x b
    rw [cntJ_append x a b]
    omega

theorem cntJ_pos_of_mem {x : JVal} :
    ∀ {l : List JVal}, x ∈ l → 1 ≤ cntJ x l
  | y :: l, h => by
    rw [cntJ]
    rcases List.mem_cons.mp h with rfl | h2
    · simp
    · have := cntJ_pos_of_mem h2
      omega

theorem cnt_flatten_of_mem (f : XElem → List JVal) (x : JVal) :
    ∀ (L : List XElem) (e : XElem), e ∈ L →
      cntJ x (f e) ≤ cntJ x ((L.map f).flatten)
  | a :: L, e, he => by
    simp only [List.map_cons, List.flatten_cons, cntJ_append]
    rcases List.mem_cons.mp he with rfl | h2
    · omega
    · have := cnt_flatten_of_mem f x L e h2
      omega

theorem cnt_flatten_pair (f : XElem → List JVal) (x : JVal) :
    ∀ (L : List XElem) (e1 e2 : XElem), e1 ∈ L → e2 ∈ L → e1 ≠ e2 →
      cntJ x (f e1) + cntJ x (f e2) ≤ cntJ x ((L.map f).flatten)
  | a :: L, e1, e2, h1, h2, hne => by
    simp only [List.map_cons, List.flatten_cons, cntJ_append]
    by_cases ha1 : a = e1
    · subst ha1
      have h2L : e2 ∈ L := by
        rcases List.mem_cons.mp h2 with h | h
        · exact absurd h.symm hne
        · exact h
      have := cnt_flatten_of_mem f x L e2 h2L
      omega
    · by_cases ha2 : a = e2
      · subst ha2
        have h1L : e1 ∈ L := by
          rcases List.mem_cons.mp h1 with h | h
          · exact absurd h.symm ha1
          · exact h
        have := cnt_flatten_of_mem f x L e1 h1L
        omega
      · have h1L : e1 ∈ L := by
          rcases List.mem_cons.mp h1 with h | h
          · exact absurd h.symm ha1
          · exact h
        have h2L : e2 ∈ L := by
          rcases List.mem_cons.mp h2 with h | h
          · exact absurd h.symm ha2
          · exact h
        have := cnt_flatten_pair f x L e1 e2 h1L h2L hne
        omega

theorem allElems_def (t : String) (a : List (String × String))
    (tx : Option String) (cs : List XElem) :
    allElems (.mk t a tx cs) = .mk t a tx cs :: allElemsL cs := by
  rw [allElems]

theorem mem_allElemsL {x : XElem} :
    ∀ {cs : List XElem}, x ∈ allElemsL cs ↔ ∃ c ∈ cs, x ∈ allElems c := by
  intro cs
  induction cs with
  | nil => simp [allElemsL]
  | cons c cs ih =>
    rw [allElemsL]
    simp only [List.mem_append, ih, List.mem_cons]
    constructor
    · rintro (h | ⟨d, hd, hx⟩)
      · exact ⟨c, Or.inl rfl, h⟩
      · exact ⟨d, Or.inr hd, hx⟩
    · rintro ⟨d, hd | hd, hx⟩
      · subst hd
        exact Or.inl hx
      · exact Or.inr ⟨d, hd, hx⟩

theorem self_mem_allElems (e : XElem) : e ∈ allElems e := by
  cases e with
  | mk t a tx cs =>
    rw [allElems_def]
    exact List.mem_cons_self _ _

theorem sizeOf_le_of_mem_allElems_aux :
    ∀ (k : Nat) (t : XElem), sizeOf t ≤ k →
      ∀ x ∈ allElems t, sizeOf x ≤ sizeOf t := by
  intro k
  induction k with
  | zero =>
    intro t ht
    cases t with
    | mk tg a tx cs => simp at ht
  | succ k ih =>
    intro t ht x hx
    cases t with
    | mk tg a tx cs =>
      rw [allElems_def] at hx
      rcases List.mem_cons.mp hx with rfl | hx2
      · exact le_refl _
      · obtain ⟨c, hc, hxc⟩ := mem_allElemsL.mp hx2
        have hcs : sizeOf c < sizeOf cs := List.sizeOf_lt_of_mem hc
        have hspec : sizeOf (XElem.mk tg a tx cs) =
            1 + sizeOf tg + sizeOf a + sizeOf tx + sizeOf cs := by simp
        have hck : sizeOf c ≤ k := by omega
        have := ih c hck x hxc
        omega

theorem sizeOf_le_of_mem_allElems {t x : XElem} (h : x ∈ allElems t) :
    sizeOf x ≤ sizeOf t :=
  sizeOf_le_of_mem_allElems_aux (sizeOf t) t (le_refl _) x h

theorem mem_allElems_trans_aux :
    ∀ (k : Nat) (z : XElem), sizeOf z ≤ k →
      ∀ y ∈ allElems z, ∀ x ∈ allElems y, x ∈ allElems z := by
  intro k
  induction k with
  | zero =>
    intro z hz
    cases z with
    | mk tg a tx cs => simp at hz
  | succ k ih =>
    intro z hz y hy x hx
    cases z with
    | mk tg a tx cs =>
      rw [allElems_def] at hy ⊢
      rcases List.mem_cons.mp hy with rfl | hy2
      · exact hx
      · obtain ⟨c, hc, hyc⟩ := mem_allElemsL.mp hy2
        have hcs : sizeOf c < sizeOf cs := List.sizeOf_lt_of_mem hc
        have hspec : sizeOf (XElem.mk tg a tx cs) =
            1 + sizeOf tg + sizeOf a + sizeOf tx + sizeOf cs := by simp
        have hck : sizeOf c ≤ k := by omega
        have hxc : x ∈ allElems c := ih c hck y hyc x hx
        exact List.mem_cons_of_mem _ (mem_allElemsL.mpr ⟨c, hc, hxc⟩)

theorem mem_allElems_trans {z y x : XElem} (hy : y ∈ allElems z)
    (hx : x ∈ allElems y) : x ∈ allElems z :=
  mem_allElems_trans_aux (sizeOf z) z (le_refl _) y hy x hx

theorem mem_resInfos_iff {e : XElem} {ri : JVal} :
    ri ∈ resInfos e ↔
      ∃ r ∈ allElems e, residueLike r = true ∧ find_residue_info r = some ri := by
  rw [resInfos]
  rw [List.mem_filterMap]
  constructor
  · rintro ⟨r, hr, heq⟩
    by_cases hl : residueLike r
    · rw [if_pos hl] at heq
      exact ⟨r, hr, hl, heq⟩
    · rw [if_neg hl] at heq
      cases heq
  · rintro ⟨r, hr, hl, heq⟩
    exact ⟨r, hr, by rw [if_pos hl]; exact heq⟩

theorem mem_contribList {e : XElem} {ri : JVal}
    (hcl : (classifyXml e).isSome = true) (hri : ri ∈ resInfos e) :
    ri ∈ contribList e := by
  cases h : classifyXml e with
  | none => rw [h] at hcl; cases hcl
  | some c =>
    have hne : resInfos e ≠ [] := List.ne_nil_of_mem hri
    have hie : (resInfos e).isEmpty = false := by
      cases hr : resInfos e with
      | nil => exact absurd hr hne
      | cons a l => rfl
    simp only [contribList, h, payloadOf, hie]
    simpa using hri

theorem countAllX_split (x : JVal) :
    ∀ L : List XElem,
      cntJ x ((L.map (fun e =>
          if classifyXml e = some Cat.hb then contribList e else [])).flatten) +
      cntJ x ((L.map (fun e =>
          if classifyXml e = some Cat.hyd then contribList e else [])).flatten) +
      cntJ x ((L.map (fun e =>
          if classifyXml e = some Cat.ion then contribList e else [])).flatten) +
      cntJ x ((L.map (fun e =>
          if classifyXml e = some Cat.wb then contribList e else [])).flatten) =
      cntJ x ((L.map contribList).flatten)
  | [] => by simp [cntJ]
  | e :: L => by
    simp only [List.map_cons, List.flatten_cons, cntJ_append]
    have ih := countAllX_split x L
    have hsum : cntJ x (if classifyXml e = some Cat.hb then contribList e else []) +
        cntJ x (if classifyXml e = some Cat.hyd then contribList e else []) +
        cntJ x (if classifyXml e = some Cat.ion then contribList e else []) +
        cntJ x (if classifyXml e = some Cat.wb then contribList e else []) =
        cntJ x (contribList e) := by
      cases h : classifyXml e with
      | none =>
        have : contribList e = [] := by simp [contribList, h]
        simp [h, this, cntJ]
      | some c => cases c <;> simp [h, cntJ]
    omega

theorem countAllX_walk (x : JVal) (root : XElem) :
    countAllX x (walk_and_collect root) =
      cntJ x (((allElems root).map contribList).flatten) := by
  have h := countAllX_split x (allElems root)
  simp only [countAllX, walk_and_collect, collectCat, List.map_cons,
    List.map_nil, List.sum_cons, List.sum_nil, Cat.xmlKey] at h ⊢
  omega

/-- C10: when a classified element has a classified strict descendant, a
residue extracted under the descendant is appended once per classified
ancestor, so its dict occurs at least twice across the output category
lists. -/
theorem c10_nested_duplication (root e1 e2 : XElem) (ri : JVal)
    (h1 : e1 ∈ allElems root) (h2 : e2 ∈ allElemsL e1.children)
    (hc1 : (classifyXml e1).isSome = true)
    (hc2 : (classifyXml e2).isSome = true)
    (hri : ri ∈ resInfos e2) :
    2 ≤ countAllX ri (walk_and_collect root) := by
  have he2in1 : e2 ∈ allElems e1 := by
    cases e1 with
    | mk tg a tx cs =>
      rw [allElems_def]
      exact List.mem_cons_of_mem _ h2
  obtain ⟨r, hr2, hrlike, hrfind⟩ := mem_resInfos_iff.mp hri
  have hr1 : r ∈ allElems e1 := mem_allElems_trans he2in1 hr2
  have hri1 : ri ∈ resInfos e1 := mem_resInfos_iff.mpr ⟨r, hr1, hrlike, hrfind⟩
  have hne : e1 ≠ e2 := by
    intro h
    subst h
    obtain ⟨c, hc, hec⟩ := mem_allElemsL.mp h2
    have hs1 : sizeOf e1 ≤ sizeOf c := by
      have := sizeOf_le_of_mem_allElems hec
      cases e1 with
      | mk tg a tx cs => exact this
    have hs2 : sizeOf c < sizeOf e1.children := List.sizeOf_lt_of_mem hc
    cases e1 with
    | mk tg a tx cs =>
      have hspec : sizeOf (XElem.mk tg a tx cs) =
          1 + sizeOf tg + sizeOf a + sizeOf tx + sizeOf cs := by simp
      simp only [XElem.children] at hs2
      omega
  have he2root : e2 ∈ allElems root := mem_allElems_trans h1 he2in1
  have m1 : ri ∈ contribList e1 := mem_contribList hc1 hri1
  have m2 : ri ∈ contribList e2 := mem_contribList hc2 hri
  have hpair := cnt_flatten_pair contribList ri (allElems root) e1 e2 h1 he2root hne
  have p1 := cntJ_pos_of_mem m1
  have p2 := cntJ_pos_of_mem m2
  rw [countAllX_walk]
  omega

/-- C10 witness: a hydrogen-bond element containing an `hbond` child that
holds the residue — the residue dict is collected twice. -/
theorem c10_witness :
    2 ≤ countAllX
        (.dict [("resname", .str "GLU"), ("resnr", .int 40), ("chain", .str "")])
        (walk_and_collect (.mk "report" [] none
          [.mk "hydrogen_bond" [] none
            [.mk "hbond" [] none
              [.mk "residue" [("resname", "GLU"), ("resnr", "40")] none []]]])) := by
  apply c10_nested_duplication _
    (.mk "hydrogen_bond" [] none
      [.mk "hbond" [] none
        [.mk "residue" [("resname", "GLU"), ("resnr", "40")] none []]])
    (.mk "hbond" [] none
      [.mk "residue" [("resname", "GLU"), ("resnr", "40")] none []])
  · decide
  · decide
  · decide
  · decide
  · decide
